import Mathlib

/-!
Verification development for the Digital NSW PDF compiler core:
the recursive crawler (`src/scraper.py`), the HTML link/slug processing
(`src/html_processor.py`, `main.py`) and the page-tree / heading-flatten
logic (`src/pdf_compiler.py`), shallowly embedded in Lean.
Strings are modelled as lists of characters (ASCII fragment of Python's
semantics); URL parsing models `urllib.parse.urlparse` restricted to the
`scheme://netloc/path` shapes the crawler manipulates.
-/

namespace DigNSW

/-! ### Character classes used by `HTMLProcessor.slugify`
`slugify` runs `text.lower().strip()`, then `re.sub(r'[^\w\s-]', '', text)`,
then `re.sub(r'[-\s]+', '-', text)`. -/

/-- The whitespace class of Python's `\s` / `str.strip` (ASCII fragment). -/
def pyIsSpace (c : Char) : Bool :=
  c == ' ' || c == '\t' || c == '\n' || c == '\r' || c == '\x0b' || c == '\x0c'

/-- Python's `\w`: alphanumeric or underscore (ASCII fragment). -/
def isWordChar (c : Char) : Bool :=
  c.isAlphanum || c == '_'

/-- The character class `[-\s]` of the collapsing regex. -/
def dashSpace (c : Char) : Bool :=
  c == '-' || pyIsSpace c

/-- `str.strip()`: drop leading and trailing whitespace. -/
def stripChars (l : List Char) : List Char :=
  ((l.dropWhile pyIsSpace).reverse.dropWhile pyIsSpace).reverse

/-- `re.sub(r'[-\s]+', '-', ·)`: replace each maximal run of dashes and
whitespace by a single dash.  The flag records whether we are inside a run
whose dash has already been emitted. -/
def collapseAux (inRun : Bool) : List Char → List Char
  | [] => []
  | c :: cs =>
    if dashSpace c then
      if inRun then collapseAux true cs else '-' :: collapseAux true cs
    else
      c :: collapseAux false cs

/-- `HTMLProcessor.slugify`: lower-case, strip surrounding whitespace, drop
characters outside `[\w\s-]`, collapse dash/whitespace runs to one dash. -/
def slugify (s : String) : String :=
  ⟨collapseAux false
    ((stripChars (s.data.map Char.toLower)).filter
      (fun c => isWordChar c || pyIsSpace c || c == '-'))⟩

/-- The slug derivation exactly as the claim words it: lower-case, remove
every character outside [alphanumeric, whitespace, hyphen], collapse
whitespace/hyphen runs to a single hyphen (no stripping, no underscore). -/
def slugifySpecClaim (s : String) : String :=
  ⟨collapseAux false
    ((s.data.map Char.toLower).filter
      (fun c => c.isAlphanum || pyIsSpace c || c == '-'))⟩

/-- The amended slug derivation: lower-case, strip surrounding whitespace,
remove every character outside [alphanumeric, underscore, whitespace,
hyphen], collapse whitespace/hyphen runs to a single hyphen. -/
def slugifyAmended (s : String) : String :=
  ⟨collapseAux false
    ((stripChars (s.data.map Char.toLower)).filter
      (fun c => c.isAlphanum || c == '_' || pyIsSpace c || c == '-'))⟩

/-! ### Page records and the URL→slug map (`main.create_url_map`) -/

/-- A page dictionary as produced by `scrape_page_recursive` (the `depth`
field records the recursion depth the page was created at). -/
structure PageRec where
  title : String
  url : String
  parent_url : Option String
  depth : Nat
  display_order : Nat
deriving DecidableEq, Repr

/-- Python dict assignment `m[k] = v` on an association list: overwrite the
value of an existing key in place, otherwise append the new binding. -/
def dictInsert (m : List (String × String)) (k v : String) : List (String × String) :=
  if (m.map Prod.fst).contains k then
    m.map (fun kv => if kv.1 == k then (k, v) else kv)
  else
    m ++ [(k, v)]

/-- `main.create_url_map`: `url_map[page['url']] = slugify(page['title'])`
over the pages in order. -/
def create_url_map (pages : List PageRec) : List (String × String) :=
  pages.foldl (fun m p => dictInsert m p.url (slugify p.title)) []

/-! ### URLs
A parsed URL in the sense of `urllib.parse.urlparse`; the crawler only ever
rebuilds `scheme://netloc/path` strings from it. -/

structure ParsedUrl where
  scheme : String
  netloc : String
  path : String
  query : String
  fragment : String
deriving DecidableEq, Repr

/-- Split a character list at the first occurrence of `"://"`, returning the
part before and the part after (`none` when the marker does not occur). -/
def protoSplit : List Char → Option (List Char × List Char)
  | [] => none
  | c :: cs =>
    if c == ':' && cs.take 2 == ['/', '/'] then
      some ([], cs.drop 2)
    else
      match protoSplit cs with
      | none => none
      | some (a, b) => some (c :: a, b)

/-- `urlparse` restricted to the fragment-free, query-free absolute URLs the
crawler builds: scheme up to `"://"`, netloc up to the next `/`, the rest is
the path.  A string without `"://"` parses as a bare path. -/
def myparse (u : String) : ParsedUrl :=
  match protoSplit u.data with
  | some (s, rest) =>
    ⟨⟨s⟩, ⟨rest.takeWhile (fun c => c != '/')⟩, ⟨rest.dropWhile (fun c => c != '/')⟩, "", ""⟩
  | none => ⟨"", "", u, "", ""⟩

/-- `s.startswith(t)` on strings. -/
def strStartsWith (s t : String) : Bool :=
  t.data.isPrefixOf s.data

/-- `s.endswith(t)` on strings. -/
def strEndsWith (s t : String) : Bool :=
  t.data.isSuffixOf s.data

/-- The canonical URL built at `scraper.py:120`:
`f"{parsed.scheme}://{parsed.netloc}{parsed.path}"` (fragment and query
dropped). -/
def clean_url (u : ParsedUrl) : String :=
  u.scheme ++ "://" ++ u.netloc ++ u.path

/-- The in-scope test of `extract_internal_links` (`scraper.py:115-117`):
same netloc, path under the section base path, and not a document/archive
file extension. -/
def inScopeLink (expectedNetloc basePath : String) (u : ParsedUrl) : Bool :=
  u.netloc == expectedNetloc &&
  strStartsWith u.path basePath &&
  !(strEndsWith u.path ".pdf" || strEndsWith u.path ".docx" ||
    strEndsWith u.path ".xlsx" || strEndsWith u.path ".zip")

/-- Loop of `extract_internal_links`: keep in-scope links, canonicalize with
`clean_url`, and de-duplicate preserving the first occurrence (`seen` is the
set of canonical URLs already emitted). -/
def extractLinksAux (expectedNetloc basePath : String) :
    List ParsedUrl → List String → List String
  | [], _ => []
  | u :: us, seen =>
    if inScopeLink expectedNetloc basePath u then
      if seen.contains (clean_url u) then
        extractLinksAux expectedNetloc basePath us seen
      else
        clean_url u :: extractLinksAux expectedNetloc basePath us (clean_url u :: seen)
    else
      extractLinksAux expectedNetloc basePath us seen

/-- `DigitalNSWScraper.extract_internal_links`: the page's resolved outbound
links, filtered to the section scope, canonicalized, first-occurrence
de-duplicated, in order of appearance. -/
def extract_internal_links (base_url basePath : String) (links : List ParsedUrl) :
    List String :=
  extractLinksAux (myparse base_url).netloc basePath links []

/-! ### Link rewriting (`HTMLProcessor.process_links`) -/

/-- An `<a href=...>` element: its href, CSS classes, and `target`. -/
structure Link where
  href : String
  classes : List String
  target : Option String
deriving DecidableEq, Repr

/-- The string `urljoin(base_url, href)` evaluates to, rebuilt from its
parse: `scheme://netloc/path` followed by `?query` and `#fragment` when
present. -/
def renderFull (u : ParsedUrl) : String :=
  clean_url u ++ (if u.query == "" then "" else "?" ++ u.query) ++
    (if u.fragment == "" then "" else "#" ++ u.fragment)

/-- One iteration of `HTMLProcessor.process_links`: anchor-only hrefs are
skipped; otherwise the fully resolved URL (`resolve` models
`urlparse ∘ urljoin base_url`) is looked up, as a string, in the URL map:
a hit rewrites to `#slug` and tags `internal-link`, a miss keeps the
resolved URL and tags `external-link` with `target="_blank"`. -/
def processLink (resolve : String → ParsedUrl) (url_map : List (String × String))
    (link : Link) : Link :=
  if strStartsWith link.href "#" then link
  else
    match url_map.lookup (renderFull (resolve link.href)) with
    | some slug =>
      { link with href := "#" ++ slug, classes := link.classes ++ ["internal-link"] }
    | none =>
      { href := renderFull (resolve link.href),
        classes := link.classes ++ ["external-link"],
        target := some "_blank" }

/-- `HTMLProcessor.process_links` over all links of a page. -/
def process_links (resolve : String → ParsedUrl) (url_map : List (String × String))
    (links : List Link) : List Link :=
  links.map (processLink resolve url_map)

/-! ### The crawl engine (`DigitalNSWScraper.scrape_page_recursive`)
The fetch-and-extract capability is modelled by
`env : String → Option (String × List ParsedUrl)`: for a URL it yields the
extracted title and the page's resolved outbound links, or `none` when the
fetch fails or no main content is extractable.  The scraper state carries
the visited set, a log of every `fetch_page` invocation together with the
recursion depth it happened at, and `direct_children_map`. -/

/-- `parsed.path.count('/')`. -/
def slashCount (s : String) : Nat :=
  s.data.countP (fun c => c == '/')

/-- Mutable scraper state: `visited_urls`, the fetch log (instrumentation:
one entry per `fetch_page` call, with the depth of the calling frame), and
`direct_children_map`. -/
structure CrawlSt where
  visited : List String
  fetchLog : List (String × Nat)
  directChildrenMap : List (String × List String)
deriving DecidableEq, Repr

/-- The `for link_url in internal_links` loop: recurse (via `f`) into each
link not yet visited, threading the state and concatenating the returned
page lists. -/
def followLinks (f : String → CrawlSt → List PageRec × CrawlSt) :
    List String → CrawlSt → List PageRec × CrawlSt
  | [], st => ([], st)
  | l :: ls, st =>
    if l ∈ st.visited then followLinks f ls st
    else
      let r := f l st
      let r2 := followLinks f ls r.2
      (r.1 ++ r2.1, r2.2)

/-- `DigitalNSWScraper.scrape_page_recursive`: skip if visited or beyond the
depth bound; otherwise mark visited, fetch, record a page entry, and—while
`depth < max_depth`—extract in-scope links, store the direct children, and
recurse into each unvisited link at `depth + 1`. -/
def scrape_page_recursive (env : String → Option (String × List ParsedUrl))
    (url base_url basePath : String) (depth max_depth : Nat)
    (parent_url : Option String) (display_order : Nat) (st : CrawlSt) :
    List PageRec × CrawlSt :=
  if url ∈ st.visited then ([], st)
  else if max_depth < depth then ([], st)
  else
    let st1 : CrawlSt := ⟨url :: st.visited, st.fetchLog ++ [(url, depth)], st.directChildrenMap⟩
    match env url with
    | none => ([], st1)
    | some (title, rawLinks) =>
      let page : PageRec := ⟨title, url, parent_url, depth, display_order⟩
      if h : depth < max_depth then
        let internal_links := extract_internal_links base_url basePath rawLinks
        let current_d := slashCount (myparse url).path
        let direct_children := internal_links.filter
          (fun l => slashCount (myparse l).path == current_d + 1)
        let st2 : CrawlSt :=
          ⟨st1.visited, st1.fetchLog, st1.directChildrenMap ++ [(url, direct_children)]⟩
        let r := followLinks
          (fun l s =>
            scrape_page_recursive env l base_url basePath (depth + 1) max_depth (some url) 0 s)
          internal_links st2
        (page :: r.1, r.2)
      else
        ([page], st1)
termination_by max_depth - depth
decreasing_by omega

/-- The `for page in section['pages']` loop of `scrape_url_list`: scrape
each entry URL at depth 0 with a shared state, concatenating the results. -/
def scrapeEntries (env : String → Option (String × List ParsedUrl))
    (base_url basePath : String) (max_depth : Nat) :
    List String → CrawlSt → List PageRec × CrawlSt
  | [], st => ([], st)
  | u :: us, st =>
    let r := scrape_page_recursive env u base_url basePath 0 max_depth none 0 st
    let r2 := scrapeEntries env base_url basePath max_depth us r.2
    (r.1 ++ r2.1, r2.2)

/-- One section's crawl in `DigitalNSWScraper.scrape_url_list`: the visited
set, fetch log and direct-children map are reset, then every entry page is
scraped recursively. -/
def scrape_url_list (env : String → Option (String × List ParsedUrl))
    (base_url basePath : String) (max_depth : Nat) (entries : List String) :
    List PageRec × CrawlSt :=
  scrapeEntries env base_url basePath max_depth entries ⟨[], [], []⟩

/-- Fuel-indexed structural twin of `scrape_page_recursive`, used as a proof
device: `scrapePageFuel` is proved equal to `scrape_page_recursive` whenever
`max_depth - depth < fuel`, and being structurally recursive it evaluates by
kernel reduction on concrete inputs. -/
def scrapePageFuel (env : String → Option (String × List ParsedUrl))
    (base_url basePath : String) (max_depth : Nat) :
    Nat → String → Nat → Option String → Nat → CrawlSt → List PageRec × CrawlSt
  | 0, _, _, _, _, st => ([], st)
  | fuel + 1, url, depth, parent_url, display_order, st =>
    if url ∈ st.visited then ([], st)
    else if max_depth < depth then ([], st)
    else
      let st1 : CrawlSt := ⟨url :: st.visited, st.fetchLog ++ [(url, depth)], st.directChildrenMap⟩
      match env url with
      | none => ([], st1)
      | some (title, rawLinks) =>
        let page : PageRec := ⟨title, url, parent_url, depth, display_order⟩
        if depth < max_depth then
          let internal_links := extract_internal_links base_url basePath rawLinks
          let current_d := slashCount (myparse url).path
          let direct_children := internal_links.filter
            (fun l => slashCount (myparse l).path == current_d + 1)
          let st2 : CrawlSt :=
            ⟨st1.visited, st1.fetchLog, st1.directChildrenMap ++ [(url, direct_children)]⟩
          let r := followLinks
            (fun l s => scrapePageFuel env base_url basePath max_depth fuel l (depth + 1) (some url) 0 s)
            internal_links st2
          (page :: r.1, r.2)
        else
          ([page], st1)

/-- Fuel-indexed twin of `scrapeEntries`. -/
def scrapeEntriesFuel (env : String → Option (String × List ParsedUrl))
    (base_url basePath : String) (max_depth fuel : Nat) :
    List String → CrawlSt → List PageRec × CrawlSt
  | [], st => ([], st)
  | u :: us, st =>
    let r := scrapePageFuel env base_url basePath max_depth fuel u 0 none 0 st
    let r2 := scrapeEntriesFuel env base_url basePath max_depth fuel us r.2
    (r.1 ++ r2.1, r2.2)

/-! ### The page-tree builder (`pdf_compiler.build_page_tree`)
`build_page_tree` keys the pages by URL, then, for each page, walks the
candidate URL prefixes `scheme://netloc/parts[:i]` for `i` from
`len(parts)-1` down to `1` and attaches the page to the first candidate that
is a known page other than itself; pages never attached are the roots. -/

/-- Scanner for `splitSlash`: `acc` holds the reversed characters of the
segment currently being read. -/
def splitSlashAux : List Char → List Char → List (List Char)
  | acc, [] => if acc.isEmpty then [] else [acc.reverse]
  | acc, c :: cs =>
    if c == '/' then
      if acc.isEmpty then splitSlashAux [] cs
      else acc.reverse :: splitSlashAux [] cs
    else splitSlashAux (c :: acc) cs

/-- `[p for p in path.split('/') if p]`: the non-empty `/`-separated
segments of a path. -/
def splitSlash (l : List Char) : List (List Char) :=
  splitSlashAux [] l

/-- `'/'.join(segs)`. -/
def joinSegs : List (List Char) → List Char
  | [] => []
  | [x] => x
  | x :: y :: rest => x ++ '/' :: joinSegs (y :: rest)

/-- The non-empty path segments of a page URL (`path_parts`). -/
def pathSegs (u : String) : List (List Char) :=
  splitSlash (myparse u).path.data

/-- The candidate parent URL for `u` at prefix length `i`:
`f"{parsed.scheme}://{parsed.netloc}" + '/' + '/'.join(path_parts[:i])`. -/
def mkParentUrl (u : String) (i : Nat) : String :=
  ⟨(myparse u).scheme.data ++ ':' :: '/' :: '/' ::
    ((myparse u).netloc.data ++ ('/' :: joinSegs ((pathSegs u).take i)))⟩

/-- The parent search of `build_page_tree`: try `i = len(parts)-1, ..., 1`
and return the first candidate that is a known page URL different from `u`
(`None` when the loop finds nothing). -/
def findParent (keys : List String) (u : String) : Option String :=
  ((List.range' 1 ((pathSegs u).length - 1)).reverse.find?
    (fun i => keys.contains (mkParentUrl u i) && mkParentUrl u i != u)).map
    (mkParentUrl u)

/-- The keys of `pages_by_url` (first-occurrence de-duplication of the page
URLs, as a Python dict comprehension produces). -/
def tree_keys (pages : List PageRec) : List String :=
  (pages.map PageRec.url).dedup

/-- The URLs appended to some parent's `children` list, one occurrence per
attaching loop iteration, in input order (`all_children` as a multiset). -/
def allChildrenOf (pages : List PageRec) : List String :=
  pages.filterMap (fun p => (findParent (tree_keys pages) p.url).map (fun _ => p.url))

/-- `root_pages`: the pages whose URL was never attached as a child. -/
def root_pages (pages : List PageRec) : List PageRec :=
  pages.filter (fun p => !(allChildrenOf pages).contains p.url)

/-- The ordered `children` list built for the page with URL `q`. -/
def childrenOf (pages : List PageRec) (q : String) : List String :=
  (pages.filter (fun p => findParent (tree_keys pages) p.url == some q)).map PageRec.url

/-! ### Heading flattening (`PDFCompiler._normalize_content_headings`)
HTML content is modelled as a tree of elements (tag, CSS classes, optional
id, children) and text nodes. -/

inductive HNode where
  | text : String → HNode
  | elem : String → List String → Option String → List HNode → HNode

/-- The heading tags h1-h6. -/
def headingLevels : List String := ["h1", "h2", "h3", "h4", "h5", "h6"]

mutual
/-- Replace every element with tag `lv` (at any depth) by a `div` carrying
the element's classes plus `content-<lv>`, the same id, and the same
children — the per-level pass of `_normalize_content_headings`. -/
def replaceNode (lv : String) : HNode → HNode
  | .text s => .text s
  | .elem t cl idv cs =>
    if t == lv then .elem "div" (cl ++ ["content-" ++ lv]) idv (replaceList lv cs)
    else .elem t cl idv (replaceList lv cs)

def replaceList (lv : String) : List HNode → List HNode
  | [] => []
  | c :: cs => replaceNode lv c :: replaceList lv cs
end

/-- The children of a content node (a `Tag`'s `children` in the source). -/
def childrenOfNode : HNode → List HNode
  | .text _ => []
  | .elem _ _ _ cs => cs

/-- `PDFCompiler._normalize_content_headings` on a `Tag` content fragment:
move the children into a fresh `div` container, then replace every h1-h6
descendant by a styled `div`, level by level. -/
def normalize_content_headings (content : HNode) : HNode :=
  headingLevels.foldl (fun c lv => replaceNode lv c)
    (HNode.elem "div" [] none (childrenOfNode content))

mutual
/-- Does an element with tag `tg` occur in the tree (the node itself or any
descendant)? -/
def nodeHasTag (tg : String) : HNode → Bool
  | .text _ => false
  | .elem t _ _ cs => t == tg || listHasTag tg cs

def listHasTag (tg : String) : List HNode → Bool
  | [] => false
  | c :: cs => nodeHasTag tg c || listHasTag tg cs
end

/-- No heading element h1-h6 occurs anywhere in the tree. -/
def headingFreeNode (n : HNode) : Bool :=
  headingLevels.all (fun lv => !nodeHasTag lv n)

/-! ### Crawl-run invariant -/

/-- How one crawl step extends the scraper state: the result `r` of a call
at recursion depth `depth` adds a block `nv` of newly visited URLs and a
block `nl` of new fetch-log entries such that the new URLs are fresh and
duplicate-free, the fetched URLs are exactly the newly visited ones, every
fetch happens at a depth between `depth` and `max_depth`, and the returned
pages have duplicate-free URLs drawn from `nv`, in-bounds depths, and a
successful fetch-and-extract. -/
def Extends (depth max_depth : Nat) (env : String → Option (String × List ParsedUrl))
    (st : CrawlSt) (r : List PageRec × CrawlSt) : Prop :=
  ∃ nv nl,
    r.2.visited = nv ++ st.visited ∧
    r.2.fetchLog = st.fetchLog ++ nl ∧
    nv.Nodup ∧
    (∀ u ∈ nv, u ∉ st.visited) ∧
    (∀ u, u ∈ nl.map Prod.fst ↔ u ∈ nv) ∧
    (nl.map Prod.fst).Nodup ∧
    (∀ e ∈ nl, depth ≤ e.2 ∧ e.2 ≤ max_depth) ∧
    (r.1.map PageRec.url).Nodup ∧
    (∀ p ∈ r.1, p.url ∈ nv ∧ depth ≤ p.depth ∧ p.depth ≤ max_depth ∧ (env p.url).isSome)

/-! ### The concrete scenario of the spec's end-to-end test
Entry page A links to B and C; B links back to A and onward to D;
C and D have no in-scope links. -/

/-- Fetch behaviour for the A/B/C/D scenario. -/
def envABCD : String → Option (String × List ParsedUrl) := fun u =>
  if u = "https://h/s/a" then
    some ("A", [⟨"https", "h", "/s/b", "", ""⟩, ⟨"https", "h", "/s/c", "", ""⟩])
  else if u = "https://h/s/b" then
    some ("B", [⟨"https", "h", "/s/a", "", ""⟩, ⟨"https", "h", "/s/d", "", ""⟩])
  else if u = "https://h/s/c" then some ("C", [])
  else if u = "https://h/s/d" then some ("D", [])
  else none

/-- A resolver for the link-rewrite counterexample: every href resolves to
`https://h/a#sec` (path `/a`, fragment `sec`). -/
def resolveC2 : String → ParsedUrl := fun _ => ⟨"https", "h", "/a", "", "sec"⟩

/-- A URL map whose only key is the canonical (fragment-stripped) URL. -/
def urlMapC2 : List (String × String) := [("https://h/a", "a-slug")]

/-- A link whose href carries a fragment. -/
def linkC2 : Link := ⟨"/a#sec", [], none⟩

/-! ## Theorems
First, the fuel-indexed twin agrees with the recursive scraper whenever it
is given enough fuel. -/

theorem followLinks_congr (f g : String → CrawlSt → List PageRec × CrawlSt)
    (h : ∀ l s, f l s = g l s) :
    ∀ (links : List String) (st : CrawlSt), followLinks f links st = followLinks g links st := by
  intro links
  induction links with
  | nil => intro st; rfl
  | cons l ls ih => intro st; simp only [followLinks, h, ih]

theorem scrapePage_eq_fuel (env : String → Option (String × List ParsedUrl))
    (base_url basePath : String) (max_depth : Nat) :
    ∀ (fuel depth : Nat), max_depth - depth < fuel →
      ∀ (url : String) (parent_url : Option String) (display_order : Nat) (st : CrawlSt),
        scrape_page_recursive env url base_url basePath depth max_depth parent_url
          display_order st =
        scrapePageFuel env base_url basePath max_depth fuel url depth parent_url
          display_order st := by
  intro fuel
  induction fuel with
  | zero => intro depth h; omega
  | succ k ih =>
    intro depth h url parent_url display_order st
    rw [scrape_page_recursive]
    by_cases hv : url ∈ st.visited
    · simp [scrapePageFuel, hv]
    · by_cases hd : max_depth < depth
      · simp [scrapePageFuel, hv, hd]
      · cases henv : env url with
        | none => simp [scrapePageFuel, hv, hd, henv]
        | some tl =>
          by_cases hlt : depth < max_depth
          · have hcong := followLinks_congr
              (fun l s => scrape_page_recursive env l base_url basePath (depth + 1) max_depth
                (some url) 0 s)
              (fun l s => scrapePageFuel env base_url basePath max_depth k l (depth + 1)
                (some url) 0 s)
              (fun l s => ih (depth + 1) (by omega) l (some url) 0 s)
            simp only [scrapePageFuel, hv, hd, henv, hlt, if_false, if_true, dif_pos,
              ite_false, ite_true]
            simp [hcong]
          · simp [scrapePageFuel, hv, hd, henv, hlt]

theorem scrapeEntries_eq_fuel (env : String → Option (String × List ParsedUrl))
    (base_url basePath : String) (max_depth fuel : Nat) (h : max_depth < fuel) :
    ∀ (entries : List String) (st : CrawlSt),
      scrapeEntries env base_url basePath max_depth entries st =
      scrapeEntriesFuel env base_url basePath max_depth fuel entries st := by
  intro entries
  induction entries with
  | nil => intro st; rfl
  | cons u us ih =>
    intro st
    simp only [scrapeEntries, scrapeEntriesFuel]
    rw [scrapePage_eq_fuel env base_url basePath max_depth fuel 0 (by omega), ih]

theorem scrape_url_list_eq_fuel (env : String → Option (String × List ParsedUrl))
    (base_url basePath : String) (max_depth fuel : Nat) (h : max_depth < fuel)
    (entries : List String) :
    scrape_url_list env base_url basePath max_depth entries =
    scrapeEntriesFuel env base_url basePath max_depth fuel entries ⟨[], [], []⟩ := by
  rw [scrape_url_list, scrapeEntries_eq_fuel env base_url basePath max_depth fuel h]

/-! Next, every scraper step satisfies the `Extends` invariant. -/

theorem extends_refl (depth max_depth : Nat) (env : String → Option (String × List ParsedUrl))
    (st : CrawlSt) : Extends depth max_depth env st ([], st) := by
  refine ⟨[], [], by simp, by simp, by simp, by simp, by simp, by simp, by simp, by simp⟩

theorem extends_comp (depth max_depth : Nat) (env : String → Option (String × List ParsedUrl))
    (st : CrawlSt) (r1 r2 : List PageRec × CrawlSt)
    (h1 : Extends depth max_depth env st r1)
    (h2 : Extends depth max_depth env r1.2 r2) :
    Extends depth max_depth env st (r1.1 ++ r2.1, r2.2) := by
  obtain ⟨nv1, nl1, hvis1, hlog1, hnd1, hfresh1, hiff1, hlnd1, hbd1, hpnd1, hpg1⟩ := h1
  obtain ⟨nv2, nl2, hvis2, hlog2, hnd2, hfresh2, hiff2, hlnd2, hbd2, hpnd2, hpg2⟩ := h2
  have hdisj : ∀ u ∈ nv2, u ∉ nv1 := by
    intro u hu hu1
    exact hfresh2 u hu (by rw [hvis1]; exact List.mem_append_left _ hu1)
  refine ⟨nv2 ++ nv1, nl1 ++ nl2, ?_, ?_, ?_, ?_, ?_, ?_, ?_, ?_, ?_⟩
  · rw [hvis2, hvis1, List.append_assoc]
  · rw [hlog2, hlog1, List.append_assoc]
  · exact hnd2.append hnd1 hdisj
  · intro u hu
    rcases List.mem_append.mp hu with h | h
    · intro hst
      exact hfresh2 u h (by rw [hvis1]; exact List.mem_append_right _ hst)
    · exact hfresh1 u h
  · intro u
    simp only [List.map_append, List.mem_append]
    rw [hiff1 u, hiff2 u]
    exact Or.comm
  · rw [List.map_append]
    refine hlnd1.append hlnd2 ?_
    intro u hu1 hu2
    exact hdisj u ((hiff2 u).mp hu2) ((hiff1 u).mp hu1)
  · intro e he
    rcases List.mem_append.mp he with h | h
    · exact hbd1 e h
    · exact hbd2 e h
  · rw [List.map_append]
    refine hpnd1.append hpnd2 ?_
    intro u hu1 hu2
    obtain ⟨p1, hp1, hpu1⟩ := List.mem_map.mp hu1
    obtain ⟨p2, hp2, hpu2⟩ := List.mem_map.mp hu2
    exact hdisj u (hpu2 ▸ (hpg2 p2 hp2).1) (hpu1 ▸ (hpg1 p1 hp1).1)
  · intro p hp
    rcases List.mem_append.mp hp with h | h
    · obtain ⟨hu, hd, hd2, hs⟩ := hpg1 p h
      exact ⟨List.mem_append_right _ hu, hd, hd2, hs⟩
    · obtain ⟨hu, hd, hd2, hs⟩ := hpg2 p h
      exact ⟨List.mem_append_left _ hu, hd, hd2, hs⟩

theorem followLinks_extends (depth max_depth : Nat)
    (env : String → Option (String × List ParsedUrl))
    (f : String → CrawlSt → List PageRec × CrawlSt)
    (hf : ∀ l s, Extends depth max_depth env s (f l s)) :
    ∀ (links : List String) (st : CrawlSt),
      Extends depth max_depth env st (followLinks f links st) := by
  intro links
  induction links with
  | nil => intro st; exact extends_refl depth max_depth env st
  | cons l ls ih =>
    intro st
    by_cases hv : l ∈ st.visited
    · simp only [followLinks, if_pos hv]
      exact ih st
    · simp only [followLinks, if_neg hv]
      exact extends_comp depth max_depth env st (f l st) (followLinks f ls (f l st).2)
        (hf l st) (ih (f l st).2)

theorem extends_head (depth max_depth : Nat) (env : String → Option (String × List ParsedUrl))
    (st : CrawlSt) (url title : String) (parent_url : Option String) (display_order : Nat)
    (rawLinks : List ParsedUrl) (dc : List (String × List String))
    (r : List PageRec × CrawlSt)
    (hv : url ∉ st.visited) (hd : depth ≤ max_depth)
    (henv : env url = some (title, rawLinks))
    (hr : Extends (depth + 1) max_depth env
      ⟨url :: st.visited, st.fetchLog ++ [(url, depth)], dc⟩ r) :
    Extends depth max_depth env st
      (PageRec.mk title url parent_url depth display_order :: r.1, r.2) := by
  obtain ⟨nvF, nlF, hvis, hlog, hnd, hfresh, hiff, hlnd, hbd, hpnd, hpg⟩ := hr
  have hurlnv : url ∉ nvF := fun hmem => hfresh url hmem (List.mem_cons_self _ _)
  refine ⟨nvF ++ [url], (url, depth) :: nlF, ?_, ?_, ?_, ?_, ?_, ?_, ?_, ?_, ?_⟩
  · rw [hvis]; simp
  · rw [hlog]; simp
  · refine hnd.append (List.nodup_singleton url) ?_
    intro u hu hu1
    rw [List.mem_singleton] at hu1
    subst hu1
    exact hurlnv hu
  · intro u hu
    rcases List.mem_append.mp hu with h | h
    · intro hst; exact hfresh u h (List.mem_cons_of_mem _ hst)
    · rw [List.mem_singleton] at h; subst h; exact hv
  · intro u
    simp only [List.map_cons, List.mem_cons, List.mem_append, List.mem_singleton,
      List.not_mem_nil, or_false]
    rw [hiff u]
    exact Or.comm
  · simp only [List.map_cons]
    refine List.nodup_cons.mpr ⟨?_, hlnd⟩
    intro hmem
    exact hurlnv ((hiff url).mp hmem)
  · intro e he
    rcases List.mem_cons.mp he with h | h
    · subst h; exact ⟨le_refl _, hd⟩
    · obtain ⟨h1, h2⟩ := hbd e h
      exact ⟨by omega, h2⟩
  · simp only [List.map_cons]
    refine List.nodup_cons.mpr ⟨?_, hpnd⟩
    intro hmem
    obtain ⟨p, hp, hpu⟩ := List.mem_map.mp hmem
    exact hurlnv (hpu ▸ (hpg p hp).1)
  · intro p hp
    rcases List.mem_cons.mp hp with h | h
    · subst h
      exact ⟨List.mem_append_right _ (List.mem_singleton_self _), le_refl _, hd,
        by rw [henv]; rfl⟩
    · obtain ⟨h1, h2, h3, h4⟩ := hpg p h
      exact ⟨List.mem_append_left _ h1, by omega, h3, h4⟩

theorem scrapePageFuel_extends (env : String → Option (String × List ParsedUrl))
    (base_url basePath : String) (max_depth : Nat) :
    ∀ (fuel depth : Nat) (url : String) (parent_url : Option String)
      (display_order : Nat) (st : CrawlSt),
      Extends depth max_depth env st
        (scrapePageFuel env base_url basePath max_depth fuel url depth parent_url
          display_order st) := by
  intro fuel
  induction fuel with
  | zero => intro depth url parent_url display_order st; exact extends_refl _ _ _ _
  | succ k ih =>
    intro depth url parent_url display_order st
    by_cases hv : url ∈ st.visited
    · simp only [scrapePageFuel, if_pos hv]
      exact extends_refl _ _ _ _
    · by_cases hd : max_depth < depth
      · simp only [scrapePageFuel, if_neg hv, if_pos hd]
        exact extends_refl _ _ _ _
      · cases henv : env url with
        | none =>
          simp only [scrapePageFuel, if_neg hv, if_neg hd, henv]
          refine ⟨[url], [(url, depth)], by simp, by simp, by simp, ?_, by simp, by simp,
            ?_, by simp, by simp⟩
          · simpa using hv
          · intro e he
            rw [List.mem_singleton] at he
            subst he
            exact ⟨le_refl _, by omega⟩
        | some tl =>
          obtain ⟨title, rawLinks⟩ := tl
          by_cases hlt : depth < max_depth
          · simp only [scrapePageFuel, if_neg hv, if_neg hd, henv, if_pos hlt]
            exact extends_head depth max_depth env st url title parent_url display_order
              rawLinks _ _ hv (by omega) henv
              (followLinks_extends (depth + 1) max_depth env _
                (fun l s => ih (depth + 1) l (some url) 0 s) _ _)
          · simp only [scrapePageFuel, if_neg hv, if_neg hd, henv, if_neg hlt]
            refine ⟨[url], [(url, depth)], by simp, by simp, by simp, ?_, by simp, by simp,
              ?_, by simp, ?_⟩
            · simpa using hv
            · intro e he
              rw [List.mem_singleton] at he
              subst he
              exact ⟨le_refl _, by omega⟩
            · intro p hp
              rw [List.mem_singleton] at hp
              subst hp
              refine ⟨by simp, le_refl _, ?_, by rw [henv]; rfl⟩
              show depth ≤ max_depth
              omega

theorem scrapeEntriesFuel_extends (env : String → Option (String × List ParsedUrl))
    (base_url basePath : String) (max_depth fuel : Nat) :
    ∀ (entries : List String) (st : CrawlSt),
      Extends 0 max_depth env st
        (scrapeEntriesFuel env base_url basePath max_depth fuel entries st) := by
  intro entries
  induction entries with
  | nil => intro st; exact extends_refl _ _ _ _
  | cons u us ih =>
    intro st
    simp only [scrapeEntriesFuel]
    exact extends_comp 0 max_depth env st _ _
      (scrapePageFuel_extends env base_url basePath max_depth fuel 0 u none 0 st) (ih _)

theorem scrape_url_list_extends (env : String → Option (String × List ParsedUrl))
    (base_url basePath : String) (max_depth : Nat) (entries : List String) :
    Extends 0 max_depth env ⟨[], [], []⟩
      (scrape_url_list env base_url basePath max_depth entries) := by
  rw [scrape_url_list_eq_fuel env base_url basePath max_depth (max_depth + 1) (by omega)]
  exact scrapeEntriesFuel_extends env base_url basePath max_depth (max_depth + 1) entries _

/-- C4: for every crawl run — any entry URLs, scope, maxDepth, and fetch
behaviour — no URL appears in more than one PageRecord of the returned
list: the URLs of the returned page records are pairwise distinct, even
when several distinct pages link to the same URL. -/
theorem C4_visited_set_safety (env : String → Option (String × List ParsedUrl))
    (base_url basePath : String) (max_depth : Nat) (entries : List String) :
    ((scrape_url_list env base_url basePath max_depth entries).1.map PageRec.url).Nodup := by
  obtain ⟨nv, nl, _, _, _, _, _, _, _, hpnd, _⟩ :=
    scrape_url_list_extends env base_url basePath max_depth entries
  exact hpnd

/-- C5: for every crawl run started at depth 0, every returned PageRecord
has `depth ≤ max_depth`, and the fetch capability is never invoked from a
recursion frame of depth greater than `max_depth` (every entry of the fetch
log carries a depth at most `max_depth`). -/
theorem C5_depth_bound (env : String → Option (String × List ParsedUrl))
    (base_url basePath : String) (max_depth : Nat) (entries : List String) :
    (∀ p ∈ (scrape_url_list env base_url basePath max_depth entries).1,
      p.depth ≤ max_depth) ∧
    (∀ e ∈ (scrape_url_list env base_url basePath max_depth entries).2.fetchLog,
      e.2 ≤ max_depth) := by
  obtain ⟨nv, nl, hvis, hlog, _, _, _, _, hbd, _, hpg⟩ :=
    scrape_url_list_extends env base_url basePath max_depth entries
  constructor
  · intro p hp
    exact (hpg p hp).2.2.1
  · intro e he
    rw [hlog] at he
    simp only [List.nil_append] at he
    exact (hbd e he).2

/-- C5 witness: in the concrete A/B/C/D crawl with maxDepth 1, the record
for page B is in the output and its depth is bounded by 1. -/
theorem C5_witness :
    (PageRec.mk "B" "https://h/s/b" (some "https://h/s/a") 1 0).depth ≤ 1 := by
  have h := C5_depth_bound envABCD "https://h" "/s" 1 ["https://h/s/a"]
  refine h.1 _ ?_
  rw [scrape_url_list_eq_fuel envABCD "https://h" "/s" 1 2 (by omega)]
  decide

/-- C10: a URL is marked visited before its fetch is attempted, so over a
section's crawl no URL is ever fetched twice (the fetched URLs are pairwise
distinct), every fetched URL stays in the final visited set, and a URL
whose fetch fails or yields no extractable content (`env` returns `none`)
never appears in any returned PageRecord. -/
theorem C10_visited_before_fetch (env : String → Option (String × List ParsedUrl))
    (base_url basePath : String) (max_depth : Nat) (entries : List String) :
    (((scrape_url_list env base_url basePath max_depth entries).2.fetchLog.map
      Prod.fst).Nodup) ∧
    (∀ e ∈ (scrape_url_list env base_url basePath max_depth entries).2.fetchLog,
      e.1 ∈ (scrape_url_list env base_url basePath max_depth entries).2.visited) ∧
    (∀ p ∈ (scrape_url_list env base_url basePath max_depth entries).1,
      (env p.url).isSome) := by
  obtain ⟨nv, nl, hvis, hlog, hnd, hfresh, hiff, hlnd, hbd, hpnd, hpg⟩ :=
    scrape_url_list_extends env base_url basePath max_depth entries
  refine ⟨?_, ?_, ?_⟩
  · rw [hlog]
    simpa using hlnd
  · intro e he
    rw [hlog] at he
    simp only [List.nil_append] at he
    have h1 : e.1 ∈ nl.map Prod.fst := List.mem_map_of_mem _ he
    have h2 := (hiff e.1).mp h1
    rw [hvis]
    simpa using h2
  · intro p hp
    exact (hpg p hp).2.2.2

/-- C10 witness: in the concrete A/B/C/D crawl, page B appears in the
output, so its fetch-and-extract succeeded. -/
theorem C10_witness : (envABCD "https://h/s/b").isSome = true := by
  have h := C10_visited_before_fetch envABCD "https://h" "/s" 1 ["https://h/s/a"]
  refine h.2.2 (PageRec.mk "B" "https://h/s/b" (some "https://h/s/a") 1 0) ?_
  rw [scrape_url_list_eq_fuel envABCD "https://h" "/s" 1 2 (by omega)]
  decide

/-- C7: in the scenario where entry page A links to B and C, and B links
back to A and onward to D, a crawl with maxDepth 1 returns PageRecords for
exactly A, B, C in that order; D is never fetched (it occurs zero times in
the fetch log) and A is fetched exactly once despite the back-link from
B. -/
theorem C7_end_to_end_scenario :
    ((scrape_url_list envABCD "https://h" "/s" 1 ["https://h/s/a"]).1.map PageRec.url =
      ["https://h/s/a", "https://h/s/b", "https://h/s/c"]) ∧
    (((scrape_url_list envABCD "https://h" "/s" 1
      ["https://h/s/a"]).2.fetchLog.map Prod.fst).count "https://h/s/d" = 0) ∧
    (((scrape_url_list envABCD "https://h" "/s" 1
      ["https://h/s/a"]).2.fetchLog.map Prod.fst).count "https://h/s/a" = 1) := by
  rw [scrape_url_list_eq_fuel envABCD "https://h" "/s" 1 2 (by omega)]
  decide

/-! ### C1: slug uniqueness of the URL map -/

theorem dictInsert_lookup (m : List (String × String)) (k v u s : String)
    (h : (dictInsert m k v).lookup u = some s) :
    (u = k ∧ s = v) ∨ m.lookup u = some s := by
  unfold dictInsert at h
  by_cases hc : (m.map Prod.fst).contains k
  · rw [if_pos hc] at h
    clear hc
    induction m with
    | nil => simp [List.lookup] at h
    | cons a t ih =>
      cases hak : a.1 == k with
      | true =>
        rw [List.map_cons] at h
        have hhead : (if (a.1 == k) = true then (k, v) else a) = (k, v) := by
          simp [hak]
        rw [hhead] at h
        cases huk : u == k with
        | true =>
          simp only [List.lookup, huk] at h
          exact Or.inl ⟨eq_of_beq huk, (Option.some.inj h).symm⟩
        | false =>
          simp only [List.lookup, huk] at h
          rcases ih h with h1 | h1
          · exact Or.inl h1
          · right
            have hua : (u == a.1) = false := by
              rw [eq_of_beq hak]
              exact huk
            simp only [List.lookup, hua]
            exact h1
      | false =>
        rw [List.map_cons] at h
        have hhead : (if (a.1 == k) = true then (k, v) else a) = a := by
          simp [hak]
        rw [hhead] at h
        cases hua : u == a.1 with
        | true =>
          simp only [List.lookup, hua] at h
          right
          simp only [List.lookup, hua]
          exact h
        | false =>
          simp only [List.lookup, hua] at h
          rcases ih h with h1 | h1
          · exact Or.inl h1
          · right
            simp only [List.lookup, hua]
            exact h1
  · rw [if_neg hc] at h
    clear hc
    induction m with
    | nil =>
      rw [List.nil_append] at h
      cases huk : u == k with
      | true =>
        simp only [List.lookup, huk] at h
        exact Or.inl ⟨eq_of_beq huk, (Option.some.inj h).symm⟩
      | false =>
        simp only [List.lookup, huk] at h
        exact absurd h (by simp)
    | cons a t ih =>
      rw [List.cons_append] at h
      cases hua : u == a.1 with
      | true =>
        simp only [List.lookup, hua] at h
        right
        simp only [List.lookup, hua]
        exact h
      | false =>
        simp only [List.lookup, hua] at h
        rcases ih h with h1 | h1
        · exact Or.inl h1
        · right
          simp only [List.lookup, hua]
          exact h1

theorem create_url_map_lookup_aux (ps : List PageRec) :
    ∀ (m : List (String × String)) (u s : String),
      (ps.foldl (fun m2 p => dictInsert m2 p.url (slugify p.title)) m).lookup u = some s →
      (∃ p ∈ ps, p.url = u ∧ s = slugify p.title) ∨ m.lookup u = some s := by
  induction ps with
  | nil => intro m u s h; exact Or.inr h
  | cons p pt ih =>
    intro m u s h
    simp only [List.foldl_cons] at h
    rcases ih _ u s h with h1 | h1
    · left
      obtain ⟨q, hq, h2, h3⟩ := h1
      exact ⟨q, List.mem_cons_of_mem _ hq, h2, h3⟩
    · rcases dictInsert_lookup m p.url (slugify p.title) u s h1 with ⟨h2, h3⟩ | h2
      · left
        exact ⟨p, List.mem_cons_self _ _, h2.symm, h3⟩
      · right
        exact h2

theorem create_url_map_lookup (pages : List PageRec) (u s : String)
    (h : (create_url_map pages).lookup u = some s) :
    ∃ p ∈ pages, p.url = u ∧ s = slugify p.title := by
  rcases create_url_map_lookup_aux pages [] u s h with h1 | h1
  · exact h1
  · simp [List.lookup] at h1

/-- C1 counterexample: `create_url_map` gives the two distinct URLs
`https://h/x` and `https://h/y`, whose pages share the title `Overview`,
the same slug `overview`, so the produced slugs are not pairwise
distinct. -/
theorem C1_counterexample :
    ((create_url_map
      [⟨"Overview", "https://h/x", none, 0, 0⟩,
       ⟨"Overview", "https://h/y", none, 0, 1⟩]).lookup "https://h/x"
      == some "overview") = true ∧
    ((create_url_map
      [⟨"Overview", "https://h/x", none, 0, 0⟩,
       ⟨"Overview", "https://h/y", none, 0, 1⟩]).lookup "https://h/y"
      == some "overview") = true ∧
    (("https://h/x" : String) == "https://h/y") = false := by
  decide

/-- C1 (amended): `create_url_map` assigns each URL the slugified title of
one of its pages with no collision resolution, so slugs of distinct URLs
are pairwise distinct provided the slugified titles of pages with distinct
URLs are pairwise distinct; two pages with an identical title always
receive the identical slug. -/
theorem C1_amended_distinct_slugs (pages : List PageRec)
    (hdist : ∀ p ∈ pages, ∀ q ∈ pages, p.url ≠ q.url →
      slugify p.title ≠ slugify q.title)
    (u1 u2 s1 s2 : String)
    (h1 : (create_url_map pages).lookup u1 = some s1)
    (h2 : (create_url_map pages).lookup u2 = some s2)
    (hne : u1 ≠ u2) : s1 ≠ s2 := by
  obtain ⟨p1, hp1, hpu1, hps1⟩ := create_url_map_lookup pages u1 s1 h1
  obtain ⟨p2, hp2, hpu2, hps2⟩ := create_url_map_lookup pages u2 s2 h2
  subst hps1
  subst hps2
  exact hdist p1 hp1 p2 hp2 (by rw [hpu1, hpu2]; exact hne)

/-- C1 witness: two pages titled `Delivery Standards` and `Design
Standards` at distinct URLs receive distinct slugs. -/
theorem C1_witness :
    (("delivery-standards" : String) == "design-standards") = false := by
  refine beq_eq_false_iff_ne.mpr ?_
  exact C1_amended_distinct_slugs
    [⟨"Delivery Standards", "https://h/x", none, 0, 0⟩,
     ⟨"Design Standards", "https://h/y", none, 0, 1⟩]
    (by decide) "https://h/x" "https://h/y" "delivery-standards" "design-standards"
    (by decide) (by decide) (by decide)

/-! ### C2: link rewriting -/

/-- C2 counterexample: for the href `/a#sec` resolving to
`https://h/a#sec`, the canonical (fragment-stripped) URL `https://h/a` is a
key of the URL map, yet `process_links` keeps the fragment-bearing resolved
URL, does not rewrite to `#a-slug`, and marks the link external, because
the lookup uses the unstripped resolved URL. -/
theorem C2_counterexample :
    ((urlMapC2.lookup (clean_url (resolveC2 linkC2.href))) == some "a-slug") = true ∧
    ((processLink resolveC2 urlMapC2 linkC2).href == "https://h/a#sec") = true ∧
    ((processLink resolveC2 urlMapC2 linkC2).classes.contains "external-link") = true ∧
    ((processLink resolveC2 urlMapC2 linkC2).classes.contains "internal-link") = false ∧
    ((processLink resolveC2 urlMapC2 linkC2).href == "#" ++ "a-slug") = false := by
  decide

/-- C2 (amended): for every non-anchor link, `process_links` looks up the
fully resolved URL exactly as `urljoin` returns it — fragment and query
retained, not canonicalized: on a hit the href becomes `#` followed by the
mapped slug and the link is tagged `internal-link`; on a miss the href
becomes the resolved URL (fragment retained) and the link is tagged
`external-link` with `target="_blank"`. -/
theorem C2_amended_link_rewrite (resolve : String → ParsedUrl)
    (url_map : List (String × String)) (link : Link)
    (hna : strStartsWith link.href "#" = false) :
    (∀ slug, url_map.lookup (renderFull (resolve link.href)) = some slug →
      (processLink resolve url_map link).href = "#" ++ slug ∧
      (processLink resolve url_map link).classes = link.classes ++ ["internal-link"] ∧
      (processLink resolve url_map link).target = link.target) ∧
    (url_map.lookup (renderFull (resolve link.href)) = none →
      (processLink resolve url_map link).href = renderFull (resolve link.href) ∧
      (processLink resolve url_map link).classes = link.classes ++ ["external-link"] ∧
      (processLink resolve url_map link).target = some "_blank") := by
  constructor
  · intro slug hs
    simp [processLink, hna, hs]
  · intro hs
    simp [processLink, hna, hs]

/-- C2 witness: with the fully resolved URL `https://h/a#sec` itself as the
map key, the link is rewritten to the in-document anchor `#a-slug`. -/
theorem C2_witness :
    (processLink resolveC2 [("https://h/a#sec", "a-slug")] linkC2).href =
      "#" ++ "a-slug" := by
  have h := C2_amended_link_rewrite resolveC2 [("https://h/a#sec", "a-slug")] linkC2
    (by decide)
  exact (h.1 "a-slug" (by decide)).1

/-! ### C3: the slug function -/

/-- C3 counterexample: `slugify` is not the claimed derivation: on `" a"`
the code strips the leading space and returns `"a"` while the claimed
derivation collapses it to a hyphen and returns `"-a"`; on `"a_b"` the code
keeps the underscore (Python's `\w` class) while the claimed derivation
removes it. -/
theorem C3_counterexample :
    (slugify " a" == "a") = true ∧ (slugifySpecClaim " a" == "-a") = true ∧
    (slugify "a_b" == "a_b") = true ∧ (slugifySpecClaim "a_b" == "ab") = true ∧
    (slugify " a" == slugifySpecClaim " a") = false ∧
    (slugify "a_b" == slugifySpecClaim "a_b") = false := by
  decide

/-- C3 (amended): for every input string, `slugify` returns the string
lower-cased, stripped of leading and trailing whitespace, with every
character outside [alphanumeric, underscore, whitespace, hyphen] removed,
and every run of whitespace and/or hyphens collapsed to a single hyphen. -/
theorem C3_amended_slugify (s : String) : slugify s = slugifyAmended s := by
  unfold slugify slugifyAmended
  have hpred : (fun c => isWordChar c || pyIsSpace c || c == '-') =
      (fun c => c.isAlphanum || c == '_' || pyIsSpace c || c == '-') := by
    funext c
    simp [isWordChar, Bool.or_assoc]
  rw [hpred]

/-! ### C8: canonical URLs ignore fragment and query -/

/-- C8: two links that resolve to URLs differing only in fragment and/or
query are classified identically by `extract_internal_links`: the same
in-scope decision, the same canonical URL — which consists of scheme, host
and path only — and the same contribution to the extracted link list. -/
theorem C8_canonical_url_invariance (base_url basePath : String) (u v : ParsedUrl)
    (hs : u.scheme = v.scheme) (hn : u.netloc = v.netloc) (hp : u.path = v.path) :
    clean_url u = clean_url v ∧
    inScopeLink (myparse base_url).netloc basePath u =
      inScopeLink (myparse base_url).netloc basePath v ∧
    clean_url u = u.scheme ++ "://" ++ u.netloc ++ u.path ∧
    extract_internal_links base_url basePath [u] =
      extract_internal_links base_url basePath [v] := by
  have h1 : clean_url u = clean_url v := by
    unfold clean_url
    rw [hs, hn, hp]
  have h2 : inScopeLink (myparse base_url).netloc basePath u =
      inScopeLink (myparse base_url).netloc basePath v := by
    unfold inScopeLink
    rw [hn, hp]
  refine ⟨h1, h2, rfl, ?_⟩
  simp only [extract_internal_links, extractLinksAux, h1, h2]

/-- C8 witness: the same path with a fragment and with a query string
yields the same canonical URL and the same extracted links. -/
theorem C8_witness :
    clean_url ⟨"https", "h", "/s/b", "", "frag"⟩ =
      clean_url ⟨"https", "h", "/s/b", "q=1", ""⟩ ∧
    extract_internal_links "https://h" "/s" [⟨"https", "h", "/s/b", "", "frag"⟩] =
      extract_internal_links "https://h" "/s" [⟨"https", "h", "/s/b", "q=1", ""⟩] := by
  have h := C8_canonical_url_invariance "https://h" "/s"
    ⟨"https", "h", "/s/b", "", "frag"⟩ ⟨"https", "h", "/s/b", "q=1", ""⟩ rfl rfl rfl
  exact ⟨h.1, h.2.2.2⟩

/-! ### C9: heading flattening -/

theorem HNode.strongInduction {P : HNode → Prop} (ht : ∀ s, P (.text s))
    (he : ∀ t cl idv cs, (∀ c ∈ cs, P c) → P (.elem t cl idv cs)) : ∀ n, P n := by
  have key : ∀ (k : Nat) (n : HNode), sizeOf n ≤ k → P n := by
    intro k
    induction k with
    | zero =>
      intro n h
      exfalso
      cases n with
      | text s => simp at h
      | elem t cl idv cs => simp at h
    | succ k ih =>
      intro n h
      cases n with
      | text s => exact ht s
      | elem t cl idv cs =>
        refine he t cl idv cs ?_
        intro c hc
        refine ih c ?_
        have h1 := List.sizeOf_lt_of_mem hc
        simp at h
        omega
  intro n
  exact key (sizeOf n) n (le_refl _)

theorem replaceNode_elem (lv t : String) (cl : List String) (idv : Option String)
    (cs : List HNode) :
    replaceNode lv (HNode.elem t cl idv cs) =
      if t == lv then
        HNode.elem "div" (cl ++ ["content-" ++ lv]) idv (replaceList lv cs)
      else HNode.elem t cl idv (replaceList lv cs) := by
  rw [replaceNode]

theorem nodeHasTag_elem (tg t : String) (cl : List String) (idv : Option String)
    (cs : List HNode) :
    nodeHasTag tg (HNode.elem t cl idv cs) = ((t == tg) || listHasTag tg cs) := by
  rw [nodeHasTag]

theorem listHasTag_replaceList_self (lv : String) (cs : List HNode)
    (ih : ∀ c ∈ cs, nodeHasTag lv (replaceNode lv c) = false) :
    listHasTag lv (replaceList lv cs) = false := by
  induction cs with
  | nil => rfl
  | cons c cs2 ih2 =>
    simp only [replaceList, listHasTag]
    rw [ih c (List.mem_cons_self _ _), ih2 (fun x hx => ih x (List.mem_cons_of_mem _ hx))]
    rfl

theorem nodeHasTag_replace_self (lv : String) (hlv : lv ≠ "div") :
    ∀ n, nodeHasTag lv (replaceNode lv n) = false := by
  intro n
  induction n using HNode.strongInduction with
  | ht s => rfl
  | he t cl idv cs ih =>
    have hdiv : ("div" == lv) = false := beq_eq_false_iff_ne.mpr (Ne.symm hlv)
    rw [replaceNode_elem]
    by_cases htag : (t == lv) = true
    · rw [if_pos htag, nodeHasTag_elem, hdiv, Bool.false_or]
      exact listHasTag_replaceList_self lv cs ih
    · rw [if_neg htag, nodeHasTag_elem,
        listHasTag_replaceList_self lv cs ih, Bool.or_false]
      simpa using htag

theorem listHasTag_replaceList_congr (lv tg : String) (cs : List HNode)
    (ih : ∀ c ∈ cs, nodeHasTag tg (replaceNode lv c) = nodeHasTag tg c) :
    listHasTag tg (replaceList lv cs) = listHasTag tg cs := by
  induction cs with
  | nil => rfl
  | cons c cs2 ih2 =>
    simp only [replaceList, listHasTag]
    rw [ih c (List.mem_cons_self _ _), ih2 (fun x hx => ih x (List.mem_cons_of_mem _ hx))]

theorem nodeHasTag_replace_other (lv tg : String) (htg : tg ≠ "div") (hne : tg ≠ lv) :
    ∀ n, nodeHasTag tg (replaceNode lv n) = nodeHasTag tg n := by
  intro n
  induction n using HNode.strongInduction with
  | ht s => rfl
  | he t cl idv cs ih =>
    rw [replaceNode_elem]
    by_cases htag : (t == lv) = true
    · rw [if_pos htag, nodeHasTag_elem, nodeHasTag_elem]
      rw [listHasTag_replaceList_congr lv tg cs ih]
      have h1 : ("div" == tg) = false := beq_eq_false_iff_ne.mpr (Ne.symm htg)
      have h2 : (t == tg) = false := by
        refine beq_eq_false_iff_ne.mpr ?_
        rw [eq_of_beq htag]
        exact Ne.symm hne
      rw [h1, h2]
    · rw [if_neg htag, nodeHasTag_elem, nodeHasTag_elem]
      rw [listHasTag_replaceList_congr lv tg cs ih]

theorem listHasTag_false_mem (lv : String) (cs : List HNode)
    (h : listHasTag lv cs = false) : ∀ c ∈ cs, nodeHasTag lv c = false := by
  induction cs with
  | nil => intro c hc; cases hc
  | cons c cs2 ih =>
    simp only [listHasTag, Bool.or_eq_false_iff] at h
    intro x hx
    rcases List.mem_cons.mp hx with h1 | h1
    · subst h1; exact h.1
    · exact ih h.2 x h1

theorem replaceList_id (lv : String) (cs : List HNode)
    (ih : ∀ c ∈ cs, replaceNode lv c = c) : replaceList lv cs = cs := by
  induction cs with
  | nil => rfl
  | cons c cs2 ih2 =>
    simp only [replaceList]
    rw [ih c (List.mem_cons_self _ _), ih2 (fun x hx => ih x (List.mem_cons_of_mem _ hx))]

theorem replaceNode_id_of_free (lv : String) :
    ∀ n, nodeHasTag lv n = false → replaceNode lv n = n := by
  intro n
  induction n using HNode.strongInduction with
  | ht s => intro _; rfl
  | he t cl idv cs ih =>
    intro h
    rw [nodeHasTag_elem, Bool.or_eq_false_iff] at h
    rw [replaceNode_elem, if_neg (by simp [h.1])]
    rw [replaceList_id lv cs (fun c hc => ih c hc (listHasTag_false_mem lv cs h.2 c hc))]

theorem normalize_heading_free (c : HNode) :
    ∀ lv ∈ headingLevels, nodeHasTag lv (normalize_content_headings c) = false := by
  intro lv hlv
  simp only [normalize_content_headings, headingLevels, List.foldl_cons, List.foldl_nil]
  have hlv6 : lv = "h1" ∨ lv = "h2" ∨ lv = "h3" ∨ lv = "h4" ∨ lv = "h5" ∨ lv = "h6" := by
    simpa [headingLevels] using hlv
  rcases hlv6 with h | h | h | h | h | h <;> subst h
  · rw [nodeHasTag_replace_other "h6" "h1" (by decide) (by decide),
      nodeHasTag_replace_other "h5" "h1" (by decide) (by decide),
      nodeHasTag_replace_other "h4" "h1" (by decide) (by decide),
      nodeHasTag_replace_other "h3" "h1" (by decide) (by decide),
      nodeHasTag_replace_other "h2" "h1" (by decide) (by decide),
      nodeHasTag_replace_self "h1" (by decide)]
  · rw [nodeHasTag_replace_other "h6" "h2" (by decide) (by decide),
      nodeHasTag_replace_other "h5" "h2" (by decide) (by decide),
      nodeHasTag_replace_other "h4" "h2" (by decide) (by decide),
      nodeHasTag_replace_other "h3" "h2" (by decide) (by decide),
      nodeHasTag_replace_self "h2" (by decide)]
  · rw [nodeHasTag_replace_other "h6" "h3" (by decide) (by decide),
      nodeHasTag_replace_other "h5" "h3" (by decide) (by decide),
      nodeHasTag_replace_other "h4" "h3" (by decide) (by decide),
      nodeHasTag_replace_self "h3" (by decide)]
  · rw [nodeHasTag_replace_other "h6" "h4" (by decide) (by decide),
      nodeHasTag_replace_other "h5" "h4" (by decide) (by decide),
      nodeHasTag_replace_self "h4" (by decide)]
  · rw [nodeHasTag_replace_other "h6" "h5" (by decide) (by decide),
      nodeHasTag_replace_self "h5" (by decide)]
  · rw [nodeHasTag_replace_self "h6" (by decide)]

theorem normalize_shape (c : HNode) :
    normalize_content_headings c =
      HNode.elem "div" [] none (childrenOfNode (normalize_content_headings c)) := rfl

theorem foldl_replace_id (n : HNode)
    (h : ∀ lv ∈ headingLevels, nodeHasTag lv n = false) :
    headingLevels.foldl (fun c lv => replaceNode lv c) n = n := by
  simp only [headingLevels, List.foldl_cons, List.foldl_nil]
  rw [replaceNode_id_of_free "h1" n (h "h1" (by decide)),
    replaceNode_id_of_free "h2" n (h "h2" (by decide)),
    replaceNode_id_of_free "h3" n (h "h3" (by decide)),
    replaceNode_id_of_free "h4" n (h "h4" (by decide)),
    replaceNode_id_of_free "h5" n (h "h5" (by decide)),
    replaceNode_id_of_free "h6" n (h "h6" (by decide))]

/-- C9: the heading-flatten step is idempotent: the output of
`_normalize_content_headings` contains no heading element h1-h6, and a
second application returns its input unchanged. -/
theorem C9_heading_flatten_idempotent (c : HNode) :
    headingFreeNode (normalize_content_headings c) = true ∧
    normalize_content_headings (normalize_content_headings c) =
      normalize_content_headings c := by
  have hfree := normalize_heading_free c
  constructor
  · simp only [headingFreeNode, List.all_eq_true]
    intro lv hlv
    simp [hfree lv hlv]
  · calc normalize_content_headings (normalize_content_headings c) =
        headingLevels.foldl (fun n lv => replaceNode lv n)
          (HNode.elem "div" [] none
            (childrenOfNode (normalize_content_headings c))) := rfl
    _ = headingLevels.foldl (fun n lv => replaceNode lv n)
          (normalize_content_headings c) := by rw [← normalize_shape]
    _ = normalize_content_headings c := foldl_replace_id _ hfree

/-! ### C6: the page-tree builder
First, reparsing facts: the candidate parent URL
`scheme://netloc/seg1/...segi` built by `build_page_tree` parses back into
the same scheme and netloc with path `/seg1/...segi`. -/

theorem protoSplit_decomp : ∀ (l s r : List Char), protoSplit l = some (s, r) →
    l = s ++ ':' :: '/' :: '/' :: r := by
  intro l
  induction l with
  | nil => intro s r h; simp [protoSplit] at h
  | cons c cs ih =>
    intro s r h
    unfold protoSplit at h
    by_cases hc : (c == ':' && cs.take 2 == ['/', '/']) = true
    · rw [if_pos hc] at h
      simp only [Option.some.injEq, Prod.mk.injEq] at h
      obtain ⟨hs, hr⟩ := h
      subst hs
      subst hr
      obtain ⟨hc1, hc2⟩ := Bool.and_eq_true_iff.mp hc
      have hcc : c = ':' := eq_of_beq hc1
      have hct : cs.take 2 = ['/', '/'] := eq_of_beq hc2
      subst hcc
      conv_lhs => rw [← List.take_append_drop 2 cs]
      rw [hct]
      rfl
    · rw [if_neg hc] at h
      cases hp : protoSplit cs with
      | none => rw [hp] at h; simp at h
      | some pr =>
        obtain ⟨a, b⟩ := pr
        rw [hp] at h
        simp only [Option.some.injEq, Prod.mk.injEq] at h
        obtain ⟨hs, hr⟩ := h
        subst hs
        subst hr
        rw [List.cons_append]
        rw [← ih a b hp]

theorem protoSplit_rebuild : ∀ (l s r : List Char), protoSplit l = some (s, r) →
    ∀ (t : List Char), protoSplit (s ++ ':' :: '/' :: '/' :: t) = some (s, t) := by
  intro l
  induction l with
  | nil => intro s r h; simp [protoSplit] at h
  | cons c cs ih =>
    intro s r h t
    unfold protoSplit at h
    by_cases hc : (c == ':' && cs.take 2 == ['/', '/']) = true
    · rw [if_pos hc] at h
      simp only [Option.some.injEq, Prod.mk.injEq] at h
      obtain ⟨hs, hr⟩ := h
      subst hs
      simp [protoSplit]
    · rw [if_neg hc] at h
      cases hp : protoSplit cs with
      | none => rw [hp] at h; simp at h
      | some pr =>
        obtain ⟨a, b⟩ := pr
        rw [hp] at h
        simp only [Option.some.injEq, Prod.mk.injEq] at h
        obtain ⟨hs, hr⟩ := h
        subst hs
        rw [List.cons_append]
        unfold protoSplit
        rw [if_neg ?hneg, ih a b hp t]
        case hneg =>
          cases a with
          | nil => simp
          | cons a0 a2 =>
            cases a2 with
            | nil => simp
            | cons a1 a3 =>
              have hcs : cs = (a0 :: a1 :: a3) ++ ':' :: '/' :: '/' :: b :=
                protoSplit_decomp cs (a0 :: a1 :: a3) b hp
              intro habs
              refine hc ?_
              rw [hcs]
              simpa using habs

theorem takeWhile_nonslash_append (a t : List Char)
    (ha : ∀ c ∈ a, (c != '/') = true) (ht : t = [] ∨ ∃ r, t = '/' :: r) :
    (a ++ t).takeWhile (fun c => c != '/') = a ∧
    (a ++ t).dropWhile (fun c => c != '/') = t := by
  induction a with
  | nil =>
    simp only [List.nil_append]
    rcases ht with h | ⟨r, h⟩
    · subst h; exact ⟨rfl, rfl⟩
    · subst h
      constructor
      · rw [List.takeWhile_cons]
        simp
      · rw [List.dropWhile_cons]
        simp
  | cons c a2 ih =>
    have hc := ha c (List.mem_cons_self _ _)
    obtain ⟨ih1, ih2⟩ := ih (fun x hx => ha x (List.mem_cons_of_mem _ hx))
    constructor
    · rw [List.cons_append, List.takeWhile_cons, if_pos hc, ih1]
    · rw [List.cons_append, List.dropWhile_cons, if_pos hc, ih2]

theorem myparse_rebuild (u : String) (t : List Char)
    (ht : t = [] ∨ ∃ r, t = '/' :: r) :
    myparse ⟨(myparse u).scheme.data ++ ':' :: '/' :: '/' ::
      ((myparse u).netloc.data ++ t)⟩ =
    ⟨(myparse u).scheme, (myparse u).netloc, ⟨t⟩, "", ""⟩ := by
  cases hp : protoSplit u.data with
  | some pr =>
    obtain ⟨s, rest⟩ := pr
    have hsch : (myparse u).scheme = ⟨s⟩ := by simp [myparse, hp]
    have hnet : (myparse u).netloc = ⟨rest.takeWhile (fun c => c != '/')⟩ := by
      simp [myparse, hp]
    rw [hsch, hnet]
    have hsplit := takeWhile_nonslash_append (rest.takeWhile (fun c => c != '/')) t
      (fun c hc => @List.mem_takeWhile_imp Char (fun z => z != '/') rest c hc) ht
    show myparse ⟨s ++ ':' :: '/' :: '/' :: (rest.takeWhile (fun c => c != '/') ++ t)⟩ = _
    unfold myparse
    rw [show (⟨s ++ ':' :: '/' :: '/' :: (rest.takeWhile (fun c => c != '/') ++ t)⟩ :
        String).data = s ++ ':' :: '/' :: '/' :: (rest.takeWhile (fun c => c != '/') ++ t)
      from rfl]
    rw [protoSplit_rebuild u.data s rest hp]
    simp [hsplit.1, hsplit.2]
  | none =>
    have hsch : (myparse u).scheme = "" := by simp [myparse, hp]
    have hnet : (myparse u).netloc = "" := by simp [myparse, hp]
    rw [hsch, hnet]
    show myparse ⟨':' :: '/' :: '/' :: t⟩ = _
    unfold myparse
    rw [show (⟨':' :: '/' :: '/' :: t⟩ : String).data = ':' :: '/' :: '/' :: t from rfl]
    rw [show protoSplit (':' :: '/' :: '/' :: t) = some ([], t) from by simp [protoSplit]]
    have hsplit := takeWhile_nonslash_append [] t (by simp) ht
    rw [List.nil_append] at hsplit
    simp [hsplit.1, hsplit.2]

/-! Splitting facts: joining non-empty slash-free segments with `/` and
re-splitting returns the segments. -/

theorem splitSlashAux_nil_eq (acc : List Char) :
    splitSlashAux acc [] = if acc.isEmpty then [] else [acc.reverse] := rfl

theorem splitSlashAux_cons_eq (acc : List Char) (c : Char) (cs : List Char) :
    splitSlashAux acc (c :: cs) =
      if c == '/' then
        if acc.isEmpty then splitSlashAux [] cs else acc.reverse :: splitSlashAux [] cs
      else splitSlashAux (c :: acc) cs := rfl

theorem splitSlashAux_scan : ∀ (seg : List Char), (∀ c ∈ seg, (c == '/') = false) →
    ∀ (acc t : List Char),
      splitSlashAux acc (seg ++ t) = splitSlashAux (seg.reverse ++ acc) t := by
  intro seg
  induction seg with
  | nil => intro _ acc t; simp
  | cons c s2 ih =>
    intro hseg acc t
    have hc := hseg c (List.mem_cons_self _ _)
    rw [List.cons_append, splitSlashAux_cons_eq, if_neg (by simp [hc])]
    rw [ih (fun x hx => hseg x (List.mem_cons_of_mem _ hx)) (c :: acc) t]
    congr 1
    simp

theorem splitSlashAux_nil_slash (cs : List Char) :
    splitSlashAux [] ('/' :: cs) = splitSlashAux [] cs := by
  rw [splitSlashAux_cons_eq]
  simp

theorem splitSlash_join : ∀ (segs : List (List Char)),
    (∀ x ∈ segs, x ≠ [] ∧ ∀ c ∈ x, (c == '/') = false) →
    splitSlash ('/' :: joinSegs segs) = segs := by
  intro segs
  induction segs with
  | nil => intro _; rfl
  | cons x xs ih =>
    intro h
    obtain ⟨hx1, hx2⟩ := h x (List.mem_cons_self _ _)
    have hxrev : ¬(x.reverse.isEmpty = true) := by
      intro habs
      rw [List.isEmpty_iff] at habs
      exact hx1 (by simpa using congrArg List.reverse habs)
    unfold splitSlash
    rw [splitSlashAux_nil_slash]
    cases xs with
    | nil =>
      rw [show joinSegs [x] = x from rfl]
      conv_lhs => rw [show (x : List Char) = x ++ ([] : List Char)
        from (List.append_nil x).symm]
      rw [splitSlashAux_scan x hx2 [] []]
      rw [splitSlashAux_nil_eq, List.append_nil, if_neg hxrev, List.reverse_reverse]
    | cons y ys =>
      rw [show joinSegs (x :: y :: ys) = x ++ ('/' :: joinSegs (y :: ys)) from rfl]
      rw [splitSlashAux_scan x hx2 [] ('/' :: joinSegs (y :: ys))]
      rw [splitSlashAux_cons_eq]
      rw [if_pos (by simp), List.append_nil, if_neg hxrev, List.reverse_reverse]
      have ihx := ih (fun z hz => h z (List.mem_cons_of_mem _ hz))
      unfold splitSlash at ihx
      rw [splitSlashAux_nil_slash] at ihx
      rw [ihx]

theorem splitSlashAux_pieces : ∀ (l acc : List Char),
    (∀ c ∈ acc, (c == '/') = false) →
    ∀ x ∈ splitSlashAux acc l, x ≠ [] ∧ ∀ c ∈ x, (c == '/') = false := by
  intro l
  induction l with
  | nil =>
    intro acc hacc x hx
    rw [splitSlashAux_nil_eq] at hx
    by_cases he : acc.isEmpty
    · rw [if_pos he] at hx
      cases hx
    · rw [if_neg he] at hx
      rw [List.mem_singleton] at hx
      subst hx
      refine ⟨?_, ?_⟩
      · intro habs
        refine he ?_
        rw [List.isEmpty_iff]
        simpa using congrArg List.reverse habs
      · intro c hc
        exact hacc c (List.mem_reverse.mp hc)
  | cons c cs ih =>
    intro acc hacc x hx
    rw [splitSlashAux_cons_eq] at hx
    by_cases hc : (c == '/') = true
    · rw [if_pos hc] at hx
      by_cases he : acc.isEmpty
      · rw [if_pos he] at hx
        exact ih [] (by simp) x hx
      · rw [if_neg he] at hx
        rcases List.mem_cons.mp hx with h1 | h1
        · subst h1
          refine ⟨?_, ?_⟩
          · intro habs
            refine he ?_
            rw [List.isEmpty_iff]
            simpa using congrArg List.reverse habs
          · intro z hz
            exact hacc z (List.mem_reverse.mp hz)
        · exact ih [] (by simp) x h1
    · rw [if_neg hc] at hx
      refine ih (c :: acc) ?_ x hx
      intro z hz
      rcases List.mem_cons.mp hz with h1 | h1
      · subst h1
        simpa using hc
      · exact hacc z h1

theorem pathSegs_pieces (u : String) :
    ∀ x ∈ pathSegs u, x ≠ [] ∧ ∀ c ∈ x, (c == '/') = false := by
  intro x hx
  exact splitSlashAux_pieces _ [] (by simp) x hx

theorem pathSegs_mkParentUrl (u : String) (i : Nat) :
    pathSegs (mkParentUrl u i) = (pathSegs u).take i := by
  have h2 : myparse (mkParentUrl u i) =
      ⟨(myparse u).scheme, (myparse u).netloc,
        ⟨'/' :: joinSegs ((pathSegs u).take i)⟩, "", ""⟩ :=
    myparse_rebuild u ('/' :: joinSegs ((pathSegs u).take i))
      (Or.inr ⟨joinSegs ((pathSegs u).take i), rfl⟩)
  show splitSlash (myparse (mkParentUrl u i)).path.data = _
  rw [h2]
  exact splitSlash_join _ (fun x hx => pathSegs_pieces u x (List.take_subset i _ hx))

/-! Analysis of the parent search and of the child/root decomposition. -/

theorem contains_iff_mem (l : List String) (a : String) : l.contains a = true ↔ a ∈ l :=
  List.elem_iff

theorem findParent_some (keys : List String) (u q : String)
    (h : findParent keys u = some q) :
    ∃ i, 1 ≤ i ∧ i < (pathSegs u).length ∧ q = mkParentUrl u i ∧
      mkParentUrl u i ∈ keys ∧ mkParentUrl u i ≠ u := by
  unfold findParent at h
  cases hf : ((List.range' 1 ((pathSegs u).length - 1)).reverse.find?
      (fun i => keys.contains (mkParentUrl u i) && mkParentUrl u i != u)) with
  | none => rw [hf] at h; simp at h
  | some i =>
    rw [hf] at h
    simp only [Option.map_some', Option.some.injEq] at h
    have hm := List.mem_of_find?_eq_some hf
    have hpred := List.find?_some hf
    rw [List.mem_reverse, List.mem_range'_1] at hm
    obtain ⟨hpk, hpne⟩ := Bool.and_eq_true_iff.mp hpred
    exact ⟨i, hm.1, by omega, h.symm, (contains_iff_mem _ _).mp hpk, bne_iff_ne.mp hpne⟩

theorem findParent_none_iff (keys : List String) (u : String) :
    findParent keys u = none ↔
      ∀ i, 1 ≤ i → i < (pathSegs u).length →
        mkParentUrl u i ∉ keys ∨ mkParentUrl u i = u := by
  unfold findParent
  rw [Option.map_eq_none', List.find?_eq_none]
  constructor
  · intro h i hi1 hiL
    have hmem : i ∈ (List.range' 1 ((pathSegs u).length - 1)).reverse := by
      rw [List.mem_reverse, List.mem_range'_1]
      omega
    have hni := h i hmem
    by_cases heq : mkParentUrl u i = u
    · exact Or.inr heq
    · left
      intro habs
      refine hni ?_
      rw [(contains_iff_mem _ _).mpr habs, bne_iff_ne.mpr heq]
      rfl
  · intro h i hmem habs
    rw [List.mem_reverse, List.mem_range'_1] at hmem
    obtain ⟨hc, hb⟩ := Bool.and_eq_true_iff.mp habs
    rcases h i hmem.1 (by omega) with h1 | h1
    · exact h1 ((contains_iff_mem _ _).mp hc)
    · exact (bne_iff_ne.mp hb) h1

theorem allChildrenOf_count (pages : List PageRec) (u : String) :
    (allChildrenOf pages).count u =
      pages.countP
        (fun p => p.url == u && (findParent (tree_keys pages) p.url).isSome) := by
  unfold allChildrenOf
  generalize tree_keys pages = keys
  induction pages with
  | nil => rfl
  | cons p t ih =>
    rw [List.filterMap_cons, List.countP_cons]
    cases hfp : findParent keys p.url with
    | none =>
      rw [Option.map_none']
      rw [ih]
      simp [hfp]
    | some q =>
      rw [Option.map_some']
      rw [List.count_cons, ih]
      simp [hfp]

theorem countP_nodup_mem : ∀ (pages : List PageRec) (X : PageRec → Bool) (p : PageRec),
    (pages.map PageRec.url).Nodup → p ∈ pages →
    pages.countP (fun q => q.url == p.url && X q) = if X p then 1 else 0 := by
  intro pages
  induction pages with
  | nil => intro X p _ hp; cases hp
  | cons q t ih =>
    intro X p hnodup hp
    rw [List.countP_cons]
    rw [List.map_cons, List.nodup_cons] at hnodup
    obtain ⟨hq, hnd⟩ := hnodup
    rcases List.mem_cons.mp hp with h1 | h1
    · subst h1
      have ht0 : t.countP (fun r => r.url == p.url && X r) = 0 := by
        rw [List.countP_eq_zero]
        intro r hr habs
        obtain ⟨hb, _⟩ := Bool.and_eq_true_iff.mp habs
        exact hq (eq_of_beq hb ▸ List.mem_map_of_mem PageRec.url hr)
      rw [ht0]
      simp
    · have hqp : (p.url == q.url) = false := by
        refine beq_eq_false_iff_ne.mpr ?_
        intro habs
        exact hq (habs ▸ List.mem_map_of_mem PageRec.url h1)
      have hqp2 : (q.url == p.url) = false := by
        refine beq_eq_false_iff_ne.mpr ?_
        intro habs
        exact hq (habs ▸ List.mem_map_of_mem PageRec.url h1)
      rw [ih X p hnd h1]
      simp [hqp2]

theorem mem_allChildren_iff (pages : List PageRec)
    (hnodup : (pages.map PageRec.url).Nodup) (p : PageRec) (hp : p ∈ pages) :
    p.url ∈ allChildrenOf pages ↔
      (findParent (tree_keys pages) p.url).isSome = true := by
  constructor
  · intro h
    obtain ⟨q, hq, hqe⟩ := List.mem_filterMap.mp h
    cases hfq : findParent (tree_keys pages) q.url with
    | none => rw [hfq] at hqe; simp at hqe
    | some z =>
      rw [hfq] at hqe
      simp only [Option.map_some', Option.some.injEq] at hqe
      have hqp : q = p := List.inj_on_of_nodup_map hnodup hq hp hqe
      subst hqp
      rw [hfq]
      rfl
  · intro h
    refine List.mem_filterMap.mpr ⟨p, hp, ?_⟩
    cases hfp : findParent (tree_keys pages) p.url with
    | none => rw [hfp] at h; cases h
    | some z => rw [Option.map_some']

theorem mem_root_pages_iff (pages : List PageRec)
    (hnodup : (pages.map PageRec.url).Nodup) (p : PageRec) (hp : p ∈ pages) :
    p ∈ root_pages pages ↔ findParent (tree_keys pages) p.url = none := by
  unfold root_pages
  rw [List.mem_filter]
  constructor
  · rintro ⟨_, hpred⟩
    rw [Bool.not_eq_true'] at hpred
    cases hfp : findParent (tree_keys pages) p.url with
    | none => rfl
    | some z =>
      exfalso
      have hmem : p.url ∈ allChildrenOf pages :=
        (mem_allChildren_iff pages hnodup p hp).mpr (by rw [hfp]; rfl)
      rw [(contains_iff_mem _ _).mpr hmem] at hpred
      cases hpred
  · intro hfp
    refine ⟨hp, ?_⟩
    rw [Bool.not_eq_true']
    rcases Bool.eq_false_or_eq_true ((allChildrenOf pages).contains p.url) with hc | hc
    · exfalso
      have hmem := (mem_allChildren_iff pages hnodup p hp).mp
        ((contains_iff_mem _ _).mp hc)
      rw [hfp] at hmem
      cases hmem
    · exact hc

theorem forest_count (pages : List PageRec)
    (hnodup : (pages.map PageRec.url).Nodup) (p : PageRec) (hp : p ∈ pages) :
    (allChildrenOf pages).count p.url +
      (root_pages pages).countP (fun q => q.url == p.url) = 1 := by
  rw [allChildrenOf_count]
  rw [countP_nodup_mem pages _ p hnodup hp]
  unfold root_pages
  rw [show (fun (q : PageRec) => q.url == p.url) =
      (fun (q : PageRec) => q.url == p.url && true) from by funext q; simp]
  rw [show (pages.filter fun p2 => !(allChildrenOf pages).contains p2.url).countP
        (fun q => q.url == p.url && true) =
      pages.countP (fun q => (q.url == p.url && true) &&
        !(allChildrenOf pages).contains q.url) from List.countP_filter _ _ _]
  rw [show (fun (q : PageRec) => (q.url == p.url && true) &&
        !(allChildrenOf pages).contains q.url) =
      (fun (q : PageRec) => q.url == p.url &&
        !(allChildrenOf pages).contains q.url) from by funext q; simp]
  rw [countP_nodup_mem pages _ p hnodup hp]
  cases hfp : findParent (tree_keys pages) p.url with
  | some q =>
    have hmem : p.url ∈ allChildrenOf pages :=
      (mem_allChildren_iff pages hnodup p hp).mpr (by rw [hfp]; rfl)
    have hcont := (contains_iff_mem _ _).mpr hmem
    rw [hcont]
    rfl
  | none =>
    have hmem : ¬ p.url ∈ allChildrenOf pages := by
      intro habs
      have h2 := (mem_allChildren_iff pages hnodup p hp).mp habs
      rw [hfp] at h2
      cases h2
    have hcont : (allChildrenOf pages).contains p.url = false := by
      rcases Bool.eq_false_or_eq_true ((allChildrenOf pages).contains p.url) with h | h
      · exact absurd ((contains_iff_mem _ _).mp h) hmem
      · exact h
    rw [hcont]
    rfl

theorem forest_parent_decreasing (pages : List PageRec) (p : PageRec) (q : String)
    (h : findParent (tree_keys pages) p.url = some q) :
    q ∈ pages.map PageRec.url ∧ (pathSegs q).length < (pathSegs p.url).length := by
  obtain ⟨i, hi1, hiL, hq, hqk, hqne⟩ := findParent_some _ _ _ h
  constructor
  · rw [hq]
    exact List.mem_dedup.mp hqk
  · rw [hq, pathSegs_mkParentUrl, List.length_take]
    rw [min_eq_left (le_of_lt hiL)]
    exact hiL

/-- C6: for every list of PageRecords with pairwise-distinct URLs, the
structure built by `build_page_tree` contains each input page exactly once:
each page is either attached to exactly one parent's children list or is a
forest root, but never both (first conjunct); every assigned parent is
itself an input page with strictly fewer path segments, so the parent
relation is acyclic and the structure is a genuine forest (second
conjunct); and a page is a forest root exactly when it has no path-prefix
ancestor among the input pages (third conjunct). -/
theorem C6_forest_partition (pages : List PageRec)
    (hnodup : (pages.map PageRec.url).Nodup) :
    ∀ p ∈ pages,
      ((allChildrenOf pages).count p.url +
        (root_pages pages).countP (fun q => q.url == p.url) = 1) ∧
      (∀ q, findParent (tree_keys pages) p.url = some q →
        q ∈ pages.map PageRec.url ∧
        (pathSegs q).length < (pathSegs p.url).length) ∧
      (p ∈ root_pages pages ↔
        ∀ i, 1 ≤ i → i < (pathSegs p.url).length →
          mkParentUrl p.url i ∉ tree_keys pages ∨ mkParentUrl p.url i = p.url) := by
  intro p hp
  refine ⟨forest_count pages hnodup p hp,
    fun q hq => forest_parent_decreasing pages p q hq, ?_⟩
  rw [mem_root_pages_iff pages hnodup p hp, findParent_none_iff]

/-- C6 witness: for the concrete two-page list `https://h/a` and
`https://h/a/b`, the child page `https://h/a/b` is attached exactly once
(and, being attached, is not a root). -/
theorem C6_witness :
    (allChildrenOf
      [⟨"A", "https://h/a", none, 0, 0⟩, ⟨"B", "https://h/a/b", none, 1, 0⟩]).count
      "https://h/a/b" +
    (root_pages
      [⟨"A", "https://h/a", none, 0, 0⟩, ⟨"B", "https://h/a/b", none, 1, 0⟩]).countP
      (fun q => q.url == "https://h/a/b") = 1 := by
  have h := C6_forest_partition
    [⟨"A", "https://h/a", none, 0, 0⟩, ⟨"B", "https://h/a/b", none, 1, 0⟩]
    (by decide) ⟨"B", "https://h/a/b", none, 1, 0⟩ (by decide)
  exact h.1

end DigNSW
